import Mathlib

set_option autoImplicit false

/-
  Verification of the audio-rendering core of the Cacophony MIDI sequencer.

  The definitions below are a shallow embedding of:
  - src/audio/src/conn.rs   (SoundFontBanks, Conn command handling, export setup)
  - src/audio/src/exporter.rs (Exporter::mid, Exporter::wav, to_i16)
  - src/io/src/lib.rs       (IO::update export gating, get_playable_tracks,
                             queue_multi_file_export)
  Types from the `common` crate and from audio modules that are not present in
  the sources (MidiEventQueue, export.rs) are modelled from the spec; each such
  definition says so in its doc comment.
-/

namespace Cacophony

/-- Modelled from the spec: the `common` crate's `Note` (src/common) is not in the
sources. Per the spec's data model a note has a pitch, a velocity, and start/end
times in PPQ (pulses). Field names follow the Rust struct; `end` is written
with guillemets because it is a Lean keyword. -/
structure Note where
  note : Nat
  velocity : Nat
  start : Nat
  «end» : Nat
  deriving DecidableEq, Repr

/-- Modelled from the spec: the `common` crate's `MidiTrack` is not in the
sources. Fields are the ones used by src/io/src/lib.rs and
src/audio/src/conn.rs: a MIDI channel, a gain, mute and solo flags, and notes. -/
structure MidiTrack where
  channel : Nat
  gain : Nat
  mute : Bool
  solo : Bool
  notes : List Note
  deriving DecidableEq, Repr

/-- Modelled from the spec: the `common` crate's `Music` is not in the sources.
It owns the list of MIDI tracks. -/
structure Music where
  midi_tracks : List MidiTrack
  deriving DecidableEq, Repr

/-- Embeds `get_playable_tracks` (src/io/src/lib.rs:613-622): if
`find` locates a soloed track, the result is just that track; otherwise all
unmuted tracks. Rust's `Iterator::find` returns the first match, which
`List.find?` mirrors. -/
def get_playable_tracks (music : Music) : List MidiTrack :=
  match music.midi_tracks.find? (fun t => t.solo) with
  | some solo => [solo]
  | none => music.midi_tracks.filter (fun t => !t.mute)

/-- A MIDI event as used by conn.rs (`oxisynth::MidiEvent`, external crate):
only the constructors conn.rs builds are modelled. -/
inductive MidiEvent where
  | NoteOn (channel key vel : Nat)
  | NoteOff (channel key : Nat)
  deriving DecidableEq, Repr

/-- Modelled from the spec: src/audio/src/midi_event_queue.rs is not in the
sources. Per spec section 4.1 the queue is a sequence of
(sample-time, event) pairs; `enqueue` is an O(1) append. -/
def enqueueEvent (q : List (Nat × MidiEvent)) (t : Nat) (e : MidiEvent) :
    List (Nat × MidiEvent) :=
  q ++ [(t, e)]

instance : DecidableRel (fun (a b : Nat × MidiEvent) => a.1 ≤ b.1) :=
  fun a b => Nat.decLe a.1 b.1

/-- Modelled from the spec: the queue's `sort` establishes ascending order by
sample time, stable with respect to insertion order for equal timestamps
(spec section 4.1); insertion sort is stable. -/
def sortQueue (q : List (Nat × MidiEvent)) : List (Nat × MidiEvent) :=
  List.insertionSort (fun a b => a.1 ≤ b.1) q

/-- Modelled from the spec: `dequeue(time)` removes and returns every event
whose sample time is at most `time`, in queue order (spec section 4.1).
Returns the popped events and the remaining queue. -/
def dequeueEvents (q : List (Nat × MidiEvent)) (time : Nat) :
    List MidiEvent × List (Nat × MidiEvent) :=
  ((q.filter (fun e => e.1 ≤ time)).map (fun e => e.2),
    q.filter (fun e => !(e.1 ≤ time : Bool)))

end Cacophony

namespace Cacophony

/-! ## Instrument catalog (src/audio/src/conn.rs) -/

/-- A SoundFont is modelled by which (bank, preset) pairs it defines
(`font.preset(b, p).is_some()` in SoundFontBanks::new, conn.rs:33). -/
abbrev Font := Nat → Nat → Bool

/-- The preset list SoundFontBanks::new (conn.rs:31-34) computes for one bank:
`(0u8..128).filter(|p| font.preset(b, *p).is_some()).collect()`. -/
def presetsOf (font : Font) (b : Nat) : List Nat :=
  (List.range 128).filter (fun p => font b p)

/-- The set of catalog entries SoundFontBanks::new (conn.rs:29-42) inserts:
for each bank 0..=128 whose preset list is non-empty, the pair
(bank, preset list). This list is in ascending bank order; the real struct
stores the entries in a hashbrown HashMap whose iteration order is arbitrary. -/
def bankEntries (font : Font) : List (Nat × List Nat) :=
  ((List.range 129).filter (fun b => !(presetsOf font b).isEmpty)).map
    (fun b => (b, presetsOf font b))

/-- Characterizes any possible result of SoundFontBanks::new (conn.rs:28-43):
`banks`, read in its HashMap iteration order, holds exactly the entries of
`bankEntries font`, in some arbitrary order. A HashMap's iteration order is
unspecified, so every permutation is a legal catalog. -/
abbrev NewInv (font : Font) (banks : List (Nat × List Nat)) : Prop :=
  banks.Perm (bankEntries font)

/-- The catalog's key list in iteration order: `soundfont.banks.keys()`. -/
def keysList (banks : List (Nat × List Nat)) : List Nat :=
  banks.map (fun e => e.1)

/-- Indexing the catalog by bank number: `soundfont.banks[&bank]`. The Rust
index panics when the bank is absent; callers only pass present banks, and the
theorems carry that hypothesis, so the default `[]` is never reached there. -/
def lookupBank (banks : List (Nat × List Nat)) (b : Nat) : List Nat :=
  (banks.lookup b).getD []

/-- Embeds the `Program` struct (common crate, fields as written by
Conn::set_program, conn.rs:325-334). -/
structure Program where
  path : String
  num_banks : Nat
  bank_index : Nat
  bank : Nat
  num_presets : Nat
  preset_index : Nat
  preset_name : String
  preset : Nat
  deriving DecidableEq, Repr

/-- The channel -> Program mirror table (`SynthState.programs`). -/
abbrev Programs := Nat → Option Program

/-- `self.state.programs.insert(channel, program)` (conn.rs:336). -/
def insertProgram (ps : Programs) (channel : Nat) (p : Program) : Programs :=
  fun c => if c = channel then some p else ps c

/-- Embeds Conn::set_program (conn.rs:311-338). `synthOk` is the result of the
external `synth.program_select` call and `presetName` the name the synth
reports for the selected preset; on failure nothing is written. On success the
stored positional metadata uses `keys()` in iteration order for the bank index
and the bank's preset list for the preset index, exactly as the source does. -/
def set_program (banks : List (Nat × List Nat)) (programs : Programs)
    (channel : Nat) (path : String) (bank preset : Nat) (synthOk : Bool)
    (presetName : String) : Programs :=
  if synthOk then
    let bank_index := (keysList banks).findIdx (fun b => b == bank)
    let presets := lookupBank banks bank
    let preset_index := presets.findIdx (fun p => p == preset)
    insertProgram programs channel
      { path := path
        num_banks := banks.length
        bank_index := bank_index
        bank := bank
        num_presets := presets.length
        preset_index := preset_index
        preset_name := presetName
        preset := preset }
  else programs

/-- Embeds the Command::SetProgram arm of Conn::do_commands (conn.rs:193-205):
`banks` is `soundfont.banks.keys().copied().collect()` in iteration order
(the source does NOT sort here), `bank = banks[bank_index]`,
`preset = soundfont.banks[&bank][preset_index]`; both indexings panic when out
of bounds, modelled by `none`. -/
def doSetProgram (banks : List (Nat × List Nat)) (programs : Programs)
    (channel : Nat) (path : String) (bank_index preset_index : Nat)
    (synthOk : Bool) (presetName : String) : Option Programs := do
  let bank ← (keysList banks)[bank_index]?
  let preset ← (lookupBank banks bank)[preset_index]?
  pure (set_program banks programs channel path bank preset synthOk presetName)

instance : DecidableRel (fun (a b : Nat) => a ≤ b) := fun a b => Nat.decLe a b

/-- Embeds Conn::set_program_default (conn.rs:297-308): collect the bank keys,
`banks.sort()`, take `banks[0]`, then the first preset of that bank, and select
that program. The source indexings panic on an empty catalog; theorems carry a
non-emptiness hypothesis. -/
def set_program_default (banks : List (Nat × List Nat)) (programs : Programs)
    (channel : Nat) (path : String) (synthOk : Bool) (presetName : String) :
    Programs :=
  let sorted := List.insertionSort (fun a b => a ≤ b) (keysList banks)
  let bank := sorted.headD 0
  let preset := (lookupBank banks bank).headD 0
  set_program banks programs channel path bank preset synthOk presetName

/-! ## Offline export setup (src/audio/src/conn.rs) -/

/-- Modelled from the spec: `MultiFileSuffix` lives in src/audio/src/export.rs,
which is not in the sources; its three variants are visible at the match sites
in conn.rs:532-546 and src/io/src/lib.rs:574-588. -/
inductive MultiFileSuffix where
  | Channel
  | Preset
  | ChannelAndPreset
  deriving DecidableEq, Repr

/-- Embeds Conn::get_export_file_suffix (conn.rs:530-547). Under the Preset and
ChannelAndPreset policies the source unwraps `self.state.programs.get(&track.channel)`,
which panics when the channel has no assigned program; the panic is modelled by
`none`. The identical match appears in IO::queue_multi_file_export
(src/io/src/lib.rs:574-588). -/
def get_export_file_suffix (policy : MultiFileSuffix) (programs : Programs)
    (track : MidiTrack) : Option String :=
  match policy with
  | MultiFileSuffix.Channel => some (toString track.channel)
  | MultiFileSuffix.Preset => (programs track.channel).map (fun p => p.preset_name)
  | MultiFileSuffix.ChannelAndPreset =>
      (programs track.channel).map
        (fun p => toString track.channel ++ "_" ++ p.preset_name)

/-- The per-track suffix computations of a multi-file export, one per playable
track, in track order; `none` when any of them panics. -/
def multiFileSuffixes (policy : MultiFileSuffix) (programs : Programs)
    (music : Music) : Option (List String) :=
  (get_playable_tracks music).mapM (get_export_file_suffix policy programs)

/-- Modelled from the spec: `Exportable` lives in src/audio/src/export.rs,
which is not in the sources; its fields (its own event queue, total sample
length, optional filename suffix) are given by the spec's data model and by the
construction sites in conn.rs:355-359 and conn.rs:372-376. -/
structure Exportable where
  events : List (Nat × MidiEvent)
  total_samples : Nat
  suffix : Option String
  deriving DecidableEq, Repr

/-- Embeds Conn::enqueue_track_events (conn.rs:396-428). `p2s` stands for
`time.ppq_to_samples(_, framerate)` (the common crate's conversion, external
to these sources) and `scale` for the f32 velocity gain scaling
`(velocity as f32 * gain) as u8`. For each note the pair of note-on/note-off
events is appended and `t1` is raised to the note-off sample time when that
time exceeds it. `noteStep` is the loop body for one note;
`enqueue_track_events` folds it over the track's notes. -/
def noteStep (p2s : Nat → Nat) (scale : Nat → Nat) (channel : Nat)
    (acc : List (Nat × MidiEvent) × Nat) (note : Note) :
    List (Nat × MidiEvent) × Nat :=
  let events := enqueueEvent acc.1 (p2s note.start)
    (MidiEvent.NoteOn channel note.note (scale note.velocity))
  let e := p2s note.«end»
  let t1 := if acc.2 < e then e else acc.2
  (enqueueEvent events e (MidiEvent.NoteOff channel note.note), t1)

def enqueue_track_events (p2s : Nat → Nat) (scale : Nat → Nat)
    (track : MidiTrack) (acc : List (Nat × MidiEvent) × Nat) :
    List (Nat × MidiEvent) × Nat :=
  track.notes.foldl (noteStep p2s scale track.channel) acc

/-- Embeds the exportable-building part of Conn::start_export
(conn.rs:340-377). In multi-file mode one Exportable per playable track, each
with a fresh queue and t1 = 0 and a suffix (`sfx` abstracts
get_export_file_suffix, whose panic behavior is settled separately); in
single-file mode a single Exportable accumulating every playable track into
one queue, with no suffix. -/
def start_export (multiFile : Bool) (p2s : Nat → Nat) (scale : Nat → Nat)
    (sfx : MidiTrack → String) (music : Music) : List Exportable :=
  let tracks := get_playable_tracks music
  if multiFile then
    tracks.map (fun track =>
      let r := enqueue_track_events p2s scale track ([], 0)
      { events := sortQueue r.1, total_samples := r.2,
        suffix := some (sfx track) })
  else
    let r := tracks.foldl
      (fun acc track => enqueue_track_events p2s scale track acc) ([], 0)
    [{ events := sortQueue r.1, total_samples := r.2, suffix := none }]

/-- One step of the render loop of Conn::export (conn.rs:448-457) at sample
time `t`: dequeue and send every event due at `t` (the sends go to the
external synth, abstracted by the stream `synth`), then write the synth's next
stereo sample into position `t` of both buffers. -/
def renderStep (synth : Nat → ℚ × ℚ)
    (st : List ℚ × List ℚ × List (Nat × MidiEvent)) (t : Nat) :
    List ℚ × List ℚ × List (Nat × MidiEvent) :=
  let q := (dequeueEvents st.2.2 t).2
  (st.1.set t (synth t).1, (st.2.1.set t (synth t).2, q))

/-- Embeds the buffer allocation and render loop of Conn::export
(conn.rs:441-457): `left`/`right` are allocated as `vec![0.0f32; total_samples]`
and then the loop writes samples for `t` in `0..total_samples`. `renderLoop n`
is the state after processing sample times `0, ..., n-1`, i.e. the state at
which the decay phase begins when `n = total_samples`. -/
def renderLoop (synth : Nat → ℚ × ℚ) (total : Nat)
    (events : List (Nat × MidiEvent)) :
    Nat → List ℚ × List ℚ × List (Nat × MidiEvent)
  | 0 => (List.replicate total 0, List.replicate total 0, events)
  | n + 1 => renderStep synth (renderLoop synth total events n) n

/-! ## Sample conversion for .wav export (src/audio/src/exporter.rs) -/

/-- The constant `F32_TO_I16` (exporter.rs:29), i.e. 32767.5. The f32 constant
is exactly representable and is modelled as a rational. -/
def F32_TO_I16 : ℚ := 65535 / 2

/-- Embeds Exporter::to_i16 (exporter.rs:352-354):
`(sample * F32_TO_I16).floor() as i16`. The f32 product and floor are modelled
exactly over the rationals; Rust's float-to-integer `as` cast saturates at the
target type's bounds, modelled by the clamp to [-32768, 32767]. -/
def to_i16 (sample : ℚ) : Int :=
  max (-32768) (min 32767 (Int.floor (sample * F32_TO_I16)))

/-- Embeds the sample-writing loop of Exporter::wav (exporter.rs:216-220): the
interleaved 16-bit PCM samples written to the file, left then right for each
frame. -/
def wavSamples (left right : List ℚ) : List Int :=
  (left.zip right).flatMap (fun lr => [to_i16 lr.1, to_i16 lr.2])

/-! ## Direct .mid export (src/audio/src/exporter.rs, Exporter::mid) -/

/-- Modelled from the spec: `MidiNote` lives in src/audio/src/exporter/midi_note.rs,
which is not in the sources; per its use in Exporter::mid it pairs a note with
its track's channel (`MidiNote::new(n, track.channel)`, exporter.rs:106). -/
structure MidiNote where
  note : Note
  channel : Nat
  deriving DecidableEq, Repr

/-- Embeds the note-gathering loop of Exporter::mid (exporter.rs:104-107):
all notes from all tracks, each tagged with its track's channel. -/
def gatherNotes (music : Music) : List MidiNote :=
  music.midi_tracks.flatMap (fun track =>
    track.notes.map (fun n => { note := n, channel := track.channel }))

/-- A channel message of the .mid export, with its delta time. The meta
messages Exporter::mid writes around the pulse walk (title, copyright,
instrument names, tempo, end-of-track; exporter.rs:113-141 and 185-190) carry
no note data and are not modelled; the claims concern the pulse walk. -/
inductive MidMessage where
  | noteOn (delta ch key vel : Nat)
  | noteOff (delta ch key vel : Nat)
  deriving DecidableEq, Repr

def isNoteOn : MidMessage → Bool
  | MidMessage.noteOn _ _ _ _ => true
  | _ => false

def isNoteOff : MidMessage → Bool
  | MidMessage.noteOff _ _ _ _ => true
  | _ => false

/-- The maximum note-off pulse, `notes.iter().map(|n| n.note.end).max()`
(exporter.rs:146); 0 for an empty list (the source unwraps, but it returns
early when there are no notes). -/
def maxEnd (notes : List MidiNote) : Nat :=
  (notes.map (fun n => n.note.«end»)).foldl Nat.max 0

instance : DecidableRel (fun (a b : MidiNote) => a.note.start ≤ b.note.start) :=
  fun a b => Nat.decLe a.note.start b.note.start

/-- The stable sort by start time, `notes.sort_by(|a, b| a.note.start.cmp(&b.note.start))`
(exporter.rs:144). -/
def sortNotes (notes : List MidiNote) : List MidiNote :=
  List.insertionSort (fun a b => a.note.start ≤ b.note.start) notes

/-- Emission of one note-on message in the pulse walk (exporter.rs:158-168):
the delta time is `Self::get_delta_time(&mut dt)`, which converts the
accumulated pulse counter (`conv` models the f32 division by `PPQ_F` and the
u32 cast, exporter.rs:343-349) and resets the counter to zero. -/
def emitOn (conv : Nat → Nat) (acc : List MidMessage × Nat) (n : MidiNote) :
    List MidMessage × Nat :=
  (acc.1 ++ [MidMessage.noteOn (conv acc.2) n.channel n.note.note n.note.velocity], 0)

/-- Emission of one note-off message in the pulse walk (exporter.rs:169-180). -/
def emitOff (conv : Nat → Nat) (acc : List MidMessage × Nat) (n : MidiNote) :
    List MidMessage × Nat :=
  (acc.1 ++ [MidMessage.noteOff (conv acc.2) n.channel n.note.note n.note.velocity], 0)

/-- One iteration of the pulse walk of Exporter::mid (exporter.rs:156-184) at
pulse `t`: emit note-ons for notes starting at `t`, then note-offs for notes
ending at `t`, then advance the time and the delta-time counter by one pulse. -/
def pulseStep (conv : Nat → Nat) (notes : List MidiNote)
    (acc : List MidMessage × Nat) (t : Nat) : List MidMessage × Nat :=
  let acc1 := (notes.filter (fun n => n.note.start == t)).foldl (emitOn conv) acc
  let acc2 := (notes.filter (fun n => n.note.«end» == t)).foldl (emitOff conv) acc1
  (acc2.1, acc2.2 + 1)

/-- The pulse walk `while t < t1` of Exporter::mid (exporter.rs:156-184):
`midWalk conv notes t` is the (messages, delta counter) state after processing
pulses `0, ..., t - 1` starting from no messages and a zero counter. -/
def midWalk (conv : Nat → Nat) (notes : List MidiNote) :
    Nat → List MidMessage × Nat
  | 0 => ([], 0)
  | t + 1 => pulseStep conv notes (midWalk conv notes t) t

/-- Embeds the channel-event body of Exporter::mid (exporter.rs:102-184):
gather all notes, return nothing when there are none, sort by start time, and
walk the pulses from 0 up to (excluding) the maximum end time. -/
def midBody (conv : Nat → Nat) (music : Music) : List MidMessage :=
  let notes := gatherNotes music
  if notes.isEmpty then []
  else
    let sorted := sortNotes notes
    (midWalk conv sorted (maxEnd sorted)).1

/-- A timeline event of the specification-side description of the pulse walk:
(pulse, is-note-on, note). -/
abbrev TimedNote := Nat × Bool × MidiNote

/-- Specification-side description of one pulse of the walk: the note-ons of
the notes starting at `t`, then the note-offs of the notes ending at `t`. -/
def pulseEvents (notes : List MidiNote) (t : Nat) : List TimedNote :=
  (notes.filter (fun n => n.note.start == t)).map (fun n => (t, true, n))
    ++ (notes.filter (fun n => n.note.«end» == t)).map (fun n => (t, false, n))

/-- Specification-side description of the whole walk: the pulses `0, ..., t1 - 1`
in order, each contributing its events. -/
def timelineEvents (notes : List MidiNote) (t1 : Nat) : List TimedNote :=
  (List.range t1).flatMap (pulseEvents notes)

/-- Specification-side delta-time assignment: each message's delta is the
converted gap between its pulse and the previous message's pulse (`prev`,
initially 0), which is exactly what a counter that is reset to zero after
every message and incremented once per pulse accumulates. -/
def emitTimed (conv : Nat → Nat) (prev : Nat) : List TimedNote → List MidMessage
  | [] => []
  | (p, isOn, n) :: rest =>
      (if isOn then MidMessage.noteOn (conv (p - prev)) n.channel n.note.note n.note.velocity
       else MidMessage.noteOff (conv (p - prev)) n.channel n.note.note n.note.velocity)
        :: emitTimed conv p rest

/-- The pulse of the last event of a timeline, `prev` when there is none. -/
def lastPulseD (prev : Nat) : List TimedNote → Nat
  | [] => prev
  | e :: rest => lastPulseD e.1 rest

/-- Emission of one timeline event with the code's counter discipline: the
message's delta is the converted current counter and the counter is reset to
zero. `emitOn`/`emitOff` are instances of this at fixed pulse and kind. -/
def emitEvent (conv : Nat → Nat) (acc : List MidMessage × Nat) (e : TimedNote) :
    List MidMessage × Nat :=
  (acc.1 ++ [if e.2.1 then
      MidMessage.noteOn (conv acc.2) e.2.2.channel e.2.2.note.note
        e.2.2.note.velocity
    else
      MidMessage.noteOff (conv acc.2) e.2.2.channel e.2.2.note.note
        e.2.2.note.velocity], 0)

/-! ## Foreground export gating (src/io/src/lib.rs, IO::update) -/

/-- The io-side export progress value (`audio::ExportState` as used by
src/io/src/lib.rs, created by `ExportState::new(t1)`); only its existence
matters to IO::update's gating, so it is modelled by its total sample count. -/
structure ExportProgress where
  t1 : Nat
  deriving DecidableEq, Repr

/-- The commands src/io/src/lib.rs sends to the audio connection; constructors
as built in IO::export, IO::queue_multi_file_export and
combine_tracks_to_commands. Paths are strings; payloads irrelevant to the
claims are kept abstract as the numbers the source computes. -/
inductive IoCommand where
  | SetFramerate (framerate : Nat)
  | PlayMusic (time : Nat)
  | NoteOnAt (channel key velocity start «end» : Nat)
  | NoteOn (channel key velocity duration : Nat)
  | StopMusicAt (time : Nat)
  | StopMusic
  | SoundOff
  | Export (path : String) (state : ExportProgress)
  | AppendSilences (paths : List String)
  deriving DecidableEq, Repr

/-- One queued multi-file export batch
(`type QueuedExportCommands = (CommandsMessage, Option<ExportState>)`,
src/io/src/lib.rs:57). -/
abbrev Batch := List IoCommand × Option ExportProgress

/-- The export-relevant fields of the foreground loop:
`conn.export_state : Option<ExportState>` and `IO.export_queue`. -/
structure LoopState where
  export_state : Option ExportProgress
  export_queue : List Batch
  deriving DecidableEq, Repr

/-- What the rest of one IO::update frame would do if it is reached; this
abstracts everything below the early return at src/io/src/lib.rs:194.
`singleExport` is a frame whose focused panel emits `IOCommand::Export` with
multi-file off (IO::export, lib.rs:494-513), carrying the already-computed
track commands and end time of `combine_tracks_to_commands`; `multiExport` is
the same with multi-file on (IO::queue_multi_file_export, lib.rs:522-609),
carrying the batches that function builds; `other` is any frame that touches
no export state. -/
inductive FrameInput where
  | quit
  | singleExport (path : String) (trackCommands : List IoCommand) (t1 : Nat)
  | multiExport (batches : List Batch)
  | other
  deriving DecidableEq, Repr

/-- Embeds the export-gating control flow of IO::update
(src/io/src/lib.rs:165-406). Returns the new state and every command sent to
the audio connection this frame. In order, as in the source: the quit early
return (lib.rs:176-178); the dispatch of one queued multi-file batch, only
when no export is in flight (lib.rs:181-191); the early return while an export
is in flight (lib.rs:194-196), which makes every later dispatch site
unreachable; and the panel-driven export paths (lib.rs:485-513, 522-609):
a single-file export sends SoundOff then Export then the track commands and
initializes `conn.export_state`, a multi-file export clears and refills the
queue. -/
def update (s : LoopState) (i : FrameInput) : LoopState × List IoCommand :=
  match i with
  | FrameInput.quit => (s, [])
  | _ =>
    let step :=
      match s.export_state, s.export_queue with
      | none, b :: rest =>
          (LoopState.mk b.2 rest, b.1)
      | _, _ => (s, ([] : List IoCommand))
    let s1 := step.1
    let sent1 := step.2
    if s1.export_state.isSome then (s1, sent1)
    else
      match i with
      | FrameInput.singleExport path trackCommands t1 =>
          (LoopState.mk (some (ExportProgress.mk t1)) s1.export_queue,
            sent1 ++ [IoCommand.SoundOff,
              IoCommand.Export path (ExportProgress.mk t1)] ++ trackCommands)
      | FrameInput.multiExport batches =>
          (LoopState.mk s1.export_state batches, sent1)
      | _ => (s1, sent1)

/-! ## Concrete inputs used by counterexamples and witnesses -/

/-- A soloed track on channel 0 with no notes. -/
def trackSoloA : MidiTrack :=
  { channel := 0, gain := 127, mute := false, solo := true, notes := [] }

/-- A second soloed track, on channel 1. -/
def trackSoloB : MidiTrack :=
  { channel := 1, gain := 127, mute := false, solo := true, notes := [] }

/-- A music with two soloed tracks. -/
def musicTwoSolos : Music := { midi_tracks := [trackSoloA, trackSoloB] }

/-- An ordinary playable track (no solo, no mute) on channel 3. -/
def trackPlain : MidiTrack :=
  { channel := 3, gain := 127, mute := false, solo := false,
    notes := [{ note := 60, velocity := 100, start := 0, «end» := 100 },
              { note := 62, velocity := 100, start := 50, «end» := 150 }] }

/-- A music with the one plain track; its notes are the spec's worked example
`[(start=0, end=100), (start=50, end=150)]`. -/
def musicPlain : Music := { midi_tracks := [trackPlain] }

/-- A one-note music: a single note from pulse 0 to pulse 1 on channel 3. -/
def musicOneNote : Music :=
  { midi_tracks :=
      [{ channel := 3, gain := 127, mute := false, solo := false,
         notes := [{ note := 60, velocity := 100, start := 0, «end» := 1 }] }] }

/-- A font defining exactly preset 0 in banks 2 and 5. -/
def fontTwoBanks : Font := fun b p => (b == 2 || b == 5) && p == 0

/-- A catalog for `fontTwoBanks` whose HashMap iteration order lists bank 5
before bank 2 (any order is legal for hashbrown). -/
def banksTwoBanks : List (Nat × List Nat) := [(5, [0]), (2, [0])]

/-- A font defining presets 1 and 7 in bank 2 and preset 0 in bank 5. -/
def fontMixed : Font :=
  fun b p => (b == 2 && (p == 1 || p == 7)) || (b == 5 && p == 0)

/-- A catalog for `fontMixed` in an unsorted iteration order. -/
def banksMixed : List (Nat × List Nat) := [(5, [0]), (2, [1, 7])]

/-- The program record that Command::SetProgram with indices (0, 0) stores for
the catalog `banksTwoBanks`: bank 5 (the 0th key in iteration order), not the
lowest bank 2. -/
def progTwoBanks : Program :=
  { path := "font", num_banks := 2, bank_index := 0, bank := 5,
    num_presets := 1, preset_index := 0, preset_name := "nm", preset := 0 }

/-! ## Helper lemmas -/

theorem find?_eq_head?_filter {α : Type} (p : α → Bool) (l : List α) :
    l.find? p = (l.filter p).head? := by
  induction l with
  | nil => rfl
  | cons a l ih =>
    rw [List.find?_cons, List.filter_cons]
    by_cases h : p a
    · simp [h]
    · simp only [h, Bool.false_eq_true, if_false, cond_false, ite_false]
      exact ih

theorem mapM_isSome_of_forall {α β : Type} (f : α → Option β) :
    ∀ l : List α, (∀ x ∈ l, (f x).isSome) → (l.mapM f).isSome := by
  intro l
  induction l with
  | nil => intro _; rfl
  | cons a l ih =>
    intro h
    rw [List.mapM_cons]
    have ha : (f a).isSome := h a (List.mem_cons_self a l)
    have hl : (l.mapM f).isSome := ih (fun x hx => h x (List.mem_cons_of_mem a hx))
    cases hfa : f a with
    | none => rw [hfa] at ha; cases ha
    | some b =>
      cases hfl : l.mapM f with
      | none => rw [hfl] at hl; cases hl
      | some bs => simp [hfa, hfl]

/-- C3: the claim says that when at least one track is soloed, the playable
tracks are exactly the soloed tracks, all of them. The source
(get_playable_tracks, src/io/src/lib.rs:615-618) uses `find`, which returns
only the FIRST soloed track: with two soloed tracks, the second soloed track
is not playable. -/
theorem c3_counterexample :
    trackSoloB.solo = true ∧ trackSoloB ∈ musicTwoSolos.midi_tracks ∧
      trackSoloB ∉ get_playable_tracks musicTwoSolos := by
  decide

/-- C3 (amended): if any track is soloed, the playable tracks are exactly the
first soloed track (the head of the soloed-track sublist), not all of them;
otherwise the playable tracks are exactly the non-muted tracks. -/
theorem c3_playable_tracks (music : Music) :
    ((music.midi_tracks.any fun t => t.solo) = true →
      get_playable_tracks music
        = (music.midi_tracks.filter fun t => t.solo).take 1) ∧
    ((music.midi_tracks.all fun t => !t.solo) = true →
      get_playable_tracks music
        = music.midi_tracks.filter fun t => !t.mute) := by
  constructor
  · intro h
    unfold get_playable_tracks
    rw [find?_eq_head?_filter]
    cases hf : music.midi_tracks.filter (fun t => t.solo) with
    | nil =>
      rcases List.any_eq_true.mp h with ⟨t, ht, hsolo⟩
      have : t ∈ music.midi_tracks.filter (fun t => t.solo) :=
        List.mem_filter.mpr ⟨ht, hsolo⟩
      rw [hf] at this
      cases this
    | cons a l => simp
  · intro h
    unfold get_playable_tracks
    have : music.midi_tracks.find? (fun t => t.solo) = none := by
      rw [List.find?_eq_none]
      intro t ht
      have := List.all_eq_true.mp h t ht
      simpa using this
    rw [this]

/-- C3 witness: on the two-solo music the amendment applies with a non-empty
solo set and yields only the first soloed track. -/
theorem c3_playable_tracks_witness :
    (musicTwoSolos.midi_tracks.any fun t => t.solo) = true ∧
      get_playable_tracks musicTwoSolos
        = (musicTwoSolos.midi_tracks.filter fun t => t.solo).take 1 :=
  ⟨by decide, (c3_playable_tracks musicTwoSolos).1 (by decide)⟩

/-- C5: when the synthesizer's program_select call fails, Conn::set_program
(conn.rs:311-338) leaves the Program mirror untouched at every channel; and
whenever any channel's entry changes, the synth call succeeded and the changed
channel is the selected one, so the mirror is written only on success. -/
theorem c5_failed_select_keeps_mirror (banks : List (Nat × List Nat))
    (programs : Programs) (channel : Nat) (path : String) (bank preset : Nat)
    (presetName : String) :
    (set_program banks programs channel path bank preset false presetName
      = programs) ∧
    (∀ (synthOk : Bool) (c : Nat),
      set_program banks programs channel path bank preset synthOk presetName c
          ≠ programs c →
        synthOk = true ∧ c = channel) := by
  refine ⟨rfl, ?_⟩
  intro synthOk c h
  cases synthOk with
  | false => exact absurd rfl h
  | true =>
    refine ⟨rfl, ?_⟩
    by_contra hc
    apply h
    unfold set_program insertProgram
    simp [hc]

/-- C5 witness: a successful select on channel 3 changes channel 3's entry,
and the implication reports success and the channel. -/
theorem c5_failed_select_keeps_mirror_witness :
    set_program banksTwoBanks (fun _ => none) 3 "font" 5 0 true "nm" 3
        ≠ (fun _ => none : Programs) 3 ∧
      (true = true ∧ 3 = 3) :=
  ⟨by decide,
    (c5_failed_select_keeps_mirror banksTwoBanks (fun _ => none) 3 "font" 5 0
      "nm").2 true 3 (by decide)⟩

/-- C1: in every state of the foreground update loop with an export in flight
(`conn.export_state` is some), `update` sends nothing to the audio connection
and changes neither the export state nor the export queue, so no second export
worker can start and every request stays deferred; any frame that does send
commands starts from the not-exporting state; and once the export state has
returned to not-exporting, a non-quit frame dispatches the head queued batch
(its commands are sent first). -/
theorem c1_export_serialized :
    (∀ (s : LoopState) (i : FrameInput), s.export_state.isSome →
        update s i = (s, [])) ∧
    (∀ (s : LoopState) (i : FrameInput), (update s i).2 ≠ [] →
        s.export_state = none) ∧
    (∀ (s : LoopState) (i : FrameInput) (b : Batch) (rest : List Batch),
        s.export_state = none → s.export_queue = b :: rest →
        i ≠ FrameInput.quit →
        ∃ tail, (update s i).2 = b.1 ++ tail) := by
  refine ⟨?_, ?_, ?_⟩
  · intro s i hs
    cases s with
    | mk es q =>
      cases es with
      | none => cases hs
      | some e => cases i <;> simp [update]
  · intro s i h
    cases s with
    | mk es q =>
      cases es with
      | none => rfl
      | some e =>
        exfalso
        apply h
        cases i <;> simp [update]
  · intro s i b rest hes hq hi
    cases s with
    | mk es q =>
      cases hes
      cases hq
      cases i with
      | quit => exact absurd rfl hi
      | singleExport path cmds t1 =>
        cases hb : b.2 with
        | none =>
          exact ⟨[IoCommand.SoundOff,
            IoCommand.Export path (ExportProgress.mk t1)] ++ cmds,
            by simp [update, hb]⟩
        | some e => exact ⟨[], by simp [update, hb]⟩
      | multiExport batches =>
        cases hb : b.2 with
        | none => exact ⟨[], by simp [update, hb]⟩
        | some e => exact ⟨[], by simp [update, hb]⟩
      | other =>
        cases hb : b.2 with
        | none => exact ⟨[], by simp [update, hb]⟩
        | some e => exact ⟨[], by simp [update, hb]⟩

/-- C1 witness: with an export in flight and a queued batch, a frame changes
nothing and sends nothing. -/
theorem c1_export_serialized_witness :
    (LoopState.mk (some (ExportProgress.mk 5)) [([IoCommand.StopMusic], none)]
        ).export_state.isSome = true ∧
      update
        (LoopState.mk (some (ExportProgress.mk 5)) [([IoCommand.StopMusic], none)])
        FrameInput.other
      = (LoopState.mk (some (ExportProgress.mk 5)) [([IoCommand.StopMusic], none)],
          []) :=
  ⟨by decide,
    c1_export_serialized.1
      (LoopState.mk (some (ExportProgress.mk 5)) [([IoCommand.StopMusic], none)])
      FrameInput.other (by decide)⟩

/-- C10: under the Preset and ChannelAndPreset policies the multi-file export
suffix (Conn::get_export_file_suffix, conn.rs:530-547, and the identical match
in IO::queue_multi_file_export, src/io/src/lib.rs:574-588) unwraps the program
lookup; when every playable track's channel has an assigned program all
suffixes are defined (the panic is unreachable), and on a concrete input with
a playable track whose channel has no program, the Preset-policy multi-file
export panics (modelled by `none`). -/
theorem c10_suffix_unwrap :
    (∀ (policy : MultiFileSuffix) (programs : Programs) (music : Music),
        (∀ t ∈ get_playable_tracks music, (programs t.channel).isSome) →
        (multiFileSuffixes policy programs music).isSome) ∧
    multiFileSuffixes MultiFileSuffix.Preset (fun _ => none) musicPlain
      = none := by
  constructor
  · intro policy programs music h
    apply mapM_isSome_of_forall
    intro t ht
    have hp := h t ht
    cases policy with
    | Channel => rfl
    | Preset =>
      unfold get_export_file_suffix
      rw [Option.isSome_map']
      exact hp
    | ChannelAndPreset =>
      unfold get_export_file_suffix
      rw [Option.isSome_map']
      exact hp
  · decide

/-- C10 witness: with a program assigned on the plain track's channel, every
multi-file suffix is defined. -/
theorem c10_suffix_unwrap_witness :
    (∀ t ∈ get_playable_tracks musicPlain,
      ((fun _ => some progTwoBanks : Programs) t.channel).isSome) ∧
    (multiFileSuffixes MultiFileSuffix.Preset (fun _ => some progTwoBanks)
      musicPlain).isSome :=
  ⟨by decide,
    c10_suffix_unwrap.1 MultiFileSuffix.Preset (fun _ => some progTwoBanks)
      musicPlain (by decide)⟩

/-! ## Catalog lemmas -/

theorem mem_bankEntries_eq {font : Font} {b : Nat} {ps : List Nat}
    (h : (b, ps) ∈ bankEntries font) :
    ps = presetsOf font b ∧ (presetsOf font b).isEmpty = false := by
  unfold bankEntries at h
  rcases List.mem_map.mp h with ⟨b', hb', heq⟩
  rcases List.mem_filter.mp hb' with ⟨_, hne⟩
  obtain ⟨hb, hps⟩ := Prod.mk.injEq b' (presetsOf font b') b ps ▸ heq
  subst hb
  exact ⟨hps.symm, by simpa using hne⟩

theorem keys_bankEntries_nodup (font : Font) :
    (keysList (bankEntries font)).Nodup := by
  unfold keysList bankEntries
  rw [List.map_map]
  have hcomp : ((fun (e : Nat × List Nat) => e.1) ∘ fun b => (b, presetsOf font b))
      = fun (b : Nat) => b := rfl
  rw [hcomp, List.map_id']
  exact (List.nodup_range 129).filter (fun b => !(presetsOf font b).isEmpty)

theorem newInv_keys_nodup {font : Font} {banks : List (Nat × List Nat)}
    (h : NewInv font banks) : (keysList banks).Nodup := by
  have hp : (keysList banks).Perm (keysList (bankEntries font)) := by
    unfold keysList
    exact h.map (fun e => e.1)
  exact hp.nodup_iff.mpr (keys_bankEntries_nodup font)

theorem lookup_cons_expand (k b : Nat) (v : List Nat) (l : List (Nat × List Nat)) :
    ((k, v) :: l).lookup b = if b == k then some v else l.lookup b := by
  simp only [List.lookup]
  cases h : b == k <;> simp [h]

theorem lookup_eq_some_of_mem :
    ∀ (l : List (Nat × List Nat)), (keysList l).Nodup →
      ∀ (b : Nat) (v : List Nat), (b, v) ∈ l → l.lookup b = some v := by
  intro l
  induction l with
  | nil => intro _ b v hm; cases hm
  | cons e l ih =>
    intro hnd b v hm
    rcases e with ⟨k, w⟩
    rw [lookup_cons_expand]
    rcases List.mem_cons.mp hm with h | h
    · obtain ⟨hb, hv⟩ := Prod.mk.injEq b v k w ▸ h
      subst hb
      subst hv
      simp
    · have hnd2 : (k :: keysList l).Nodup := hnd
      have hbk : b ≠ k := by
        intro he
        subst he
        have hbmem : b ∈ keysList l :=
          List.mem_map.mpr ⟨(b, v), h, rfl⟩
        exact (List.nodup_cons.mp hnd2).1 hbmem
      have : (b == k) = false := beq_eq_false_iff_ne.mpr hbk
      rw [this]
      simp only [Bool.false_eq_true, if_false]
      exact ih (List.nodup_cons.mp hnd2).2 b v h

theorem newInv_mem_eq {font : Font} {banks : List (Nat × List Nat)}
    (h : NewInv font banks) {b : Nat} {ps : List Nat} (hm : (b, ps) ∈ banks) :
    ps = presetsOf font b ∧ ps.isEmpty = false := by
  have hm2 : (b, ps) ∈ bankEntries font := h.mem_iff.mp hm
  obtain ⟨heq, hne⟩ := mem_bankEntries_eq hm2
  exact ⟨heq, heq ▸ hne⟩

theorem newInv_lookup {font : Font} {banks : List (Nat × List Nat)}
    (h : NewInv font banks) {b : Nat} {ps : List Nat} (hm : (b, ps) ∈ banks) :
    banks.lookup b = some ps :=
  lookup_eq_some_of_mem banks (newInv_keys_nodup h) b ps hm

theorem presetsOf_sorted (font : Font) (b : Nat) :
    List.Sorted (· < ·) (presetsOf font b) :=
  List.Pairwise.filter (fun p => font b p) (List.pairwise_lt_range 128)

theorem mem_of_mem_keys {banks : List (Nat × List Nat)} {b : Nat}
    (h : b ∈ keysList banks) : ∃ ps, (b, ps) ∈ banks := by
  rcases List.mem_map.mp h with ⟨e, he, heq⟩
  rcases e with ⟨k, v⟩
  cases heq
  exact ⟨v, he⟩

/-- C9: for every catalog a loaded SoundFont can produce
(SoundFontBanks::new, conn.rs:28-43, any HashMap iteration order), every
catalogued bank has a non-empty preset list in strictly ascending order, so
indexing its first preset — as Conn::set_program_default does — is in bounds. -/
theorem c9_catalog_invariant (font : Font) (banks : List (Nat × List Nat))
    (hinv : NewInv font banks) :
    ∀ b ps, (b, ps) ∈ banks →
      ps ≠ [] ∧ List.Sorted (· < ·) ps ∧ 0 < ps.length := by
  intro b ps hm
  obtain ⟨heq, hne⟩ := newInv_mem_eq hinv hm
  have hnil : ps ≠ [] := by
    intro h
    rw [h] at hne
    cases hne
  refine ⟨hnil, heq ▸ presetsOf_sorted font b, List.length_pos.mpr hnil⟩

/-- C9 witness: the invariant evaluated on a concrete two-bank catalog. -/
theorem c9_catalog_invariant_witness :
    NewInv fontTwoBanks banksTwoBanks ∧
      (([0] : List Nat) ≠ [] ∧ List.Sorted (· < ·) ([0] : List Nat) ∧
        0 < ([0] : List Nat).length) :=
  ⟨by decide,
    c9_catalog_invariant fontTwoBanks banksTwoBanks (by decide) 5 [0]
      (by decide)⟩

theorem set_program_apply_channel (banks : List (Nat × List Nat))
    (programs : Programs) (channel : Nat) (path : String) (bank preset : Nat)
    (presetName : String) :
    set_program banks programs channel path bank preset true presetName channel
      = some
        { path := path
          num_banks := banks.length
          bank_index := (keysList banks).findIdx (fun b => b == bank)
          bank := bank
          num_presets := (lookupBank banks bank).length
          preset_index := (lookupBank banks bank).findIdx (fun p => p == preset)
          preset_name := presetName
          preset := preset } := by
  unfold set_program insertProgram
  simp

theorem findIdx_beq_of_nodup (l : List Nat) (i a : Nat) (h : l.Nodup)
    (hg : l[i]? = some a) : l.findIdx (fun x => x == a) = i := by
  induction l generalizing i with
  | nil => simp at hg
  | cons x l ih =>
    cases i with
    | zero =>
      simp at hg
      subst hg
      simp [List.findIdx_cons]
    | succ n =>
      simp at hg
      have hmem : a ∈ l := List.getElem?_mem hg
      have hx : (x == a) = false := by
        apply beq_eq_false_iff_ne.mpr
        intro he
        subst he
        exact (List.nodup_cons.mp h).1 hmem
      rw [List.findIdx_cons, hx]
      simp only [cond_false]
      rw [ih n (List.nodup_cons.mp h).2 hg]

/-- C4: for every loaded catalog (any HashMap iteration order) and every
channel, Conn::set_program_default (conn.rs:297-308) sorts the bank numbers
and picks the first, then the first preset of that bank, so the program stored
for the channel holds the lowest bank number of the catalog and the lowest
preset number within that bank (when the external program_select succeeds). -/
theorem c4_default_lowest (font : Font) (banks : List (Nat × List Nat))
    (programs : Programs) (channel : Nat) (path : String) (presetName : String)
    (hinv : NewInv font banks) (hne : banks ≠ []) :
    ∃ prog,
      set_program_default banks programs channel path true presetName channel
          = some prog ∧
      prog.bank ∈ keysList banks ∧ (∀ b ∈ keysList banks, prog.bank ≤ b) ∧
      prog.preset ∈ lookupBank banks prog.bank ∧
      (∀ p ∈ lookupBank banks prog.bank, prog.preset ≤ p) := by
  have hkne : keysList banks ≠ [] := by
    intro h
    apply hne
    cases hbs : banks with
    | nil => rfl
    | cons e l => rw [hbs] at h; simp [keysList] at h
  have hperm :
      (List.insertionSort (fun a b => a ≤ b) (keysList banks)).Perm
        (keysList banks) :=
    List.perm_insertionSort _ _
  have hsorted :
      List.Sorted (fun a b => a ≤ b)
        (List.insertionSort (fun a b => a ≤ b) (keysList banks)) :=
    List.sorted_insertionSort _ _
  have hsne : List.insertionSort (fun a b => a ≤ b) (keysList banks) ≠ [] := by
    intro h
    apply hkne
    exact (h ▸ hperm).symm.eq_nil
  obtain ⟨x, xs, hx⟩ := List.exists_cons_of_ne_nil hsne
  have hxmem : x ∈ keysList banks :=
    hperm.mem_iff.mp (hx ▸ List.mem_cons_self x xs)
  have hxle : ∀ b ∈ keysList banks, x ≤ b := by
    intro b hb
    have hbs : b ∈ x :: xs := hx ▸ hperm.mem_iff.mpr hb
    rcases List.mem_cons.mp hbs with h | h
    · exact h ▸ Nat.le_refl x
    · exact (List.sorted_cons.mp (hx ▸ hsorted)).1 b h
  obtain ⟨ps, hpsmem⟩ := mem_of_mem_keys hxmem
  have hlook : lookupBank banks x = ps := by
    unfold lookupBank
    rw [newInv_lookup hinv hpsmem]
    rfl
  obtain ⟨hpseq, hpsne⟩ := newInv_mem_eq hinv hpsmem
  have hpsnil : ps ≠ [] := by
    intro h
    rw [h] at hpsne
    cases hpsne
  obtain ⟨p, ptl, hp⟩ := List.exists_cons_of_ne_nil hpsnil
  have hps_sorted : List.Sorted (· < ·) ps := hpseq ▸ presetsOf_sorted font x
  have hple : ∀ q ∈ ps, p ≤ q := by
    intro q hq
    rcases List.mem_cons.mp (hp ▸ hq) with h | h
    · exact h ▸ Nat.le_refl p
    · exact Nat.le_of_lt ((List.sorted_cons.mp (hp ▸ hps_sorted)).1 q h)
  have hhead :
      (List.insertionSort (fun a b => a ≤ b) (keysList banks)).headD 0 = x := by
    rw [hx]
    rfl
  have hphead : (lookupBank banks x).headD 0 = p := by
    rw [hlook, hp]
    rfl
  have h0 : set_program_default banks programs channel path true presetName
      = set_program banks programs channel path
          ((List.insertionSort (fun a b => a ≤ b) (keysList banks)).headD 0)
          ((lookupBank banks
            ((List.insertionSort (fun a b => a ≤ b) (keysList banks)).headD 0)
            ).headD 0)
          true presetName := rfl
  have hmain :
      set_program_default banks programs channel path true presetName channel
        = some
          { path := path
            num_banks := banks.length
            bank_index := (keysList banks).findIdx (fun b => b == x)
            bank := x
            num_presets := (lookupBank banks x).length
            preset_index := (lookupBank banks x).findIdx (fun q => q == p)
            preset_name := presetName
            preset := p } := by
    rw [h0, hhead, hphead, set_program_apply_channel]
  refine ⟨_, hmain, hxmem, hxle, ?_, ?_⟩
  · show p ∈ lookupBank banks x
    rw [hlook, hp]
    exact List.mem_cons_self p ptl
  · show ∀ q ∈ lookupBank banks x, p ≤ q
    rw [hlook]
    exact hple

/-- C4 witness: on a concrete unsorted two-bank catalog the default program is
the lowest bank and its lowest preset. -/
theorem c4_default_lowest_witness :
    NewInv fontMixed banksMixed ∧
      ∃ prog,
        set_program_default banksMixed (fun _ => none) 0 "f" true "nm" 0
            = some prog ∧
        prog.bank ∈ keysList banksMixed ∧
        (∀ b ∈ keysList banksMixed, prog.bank ≤ b) ∧
        prog.preset ∈ lookupBank banksMixed prog.bank ∧
        (∀ p ∈ lookupBank banksMixed prog.bank, prog.preset ≤ p) :=
  ⟨by decide,
    c4_default_lowest fontMixed banksMixed (fun _ => none) 0 "f" "nm"
      (by decide) (by decide)⟩

/-- C2: the claim says SetProgram's bank_index indexes the SORTED list of the
catalog's bank numbers. The source (Conn::do_commands, conn.rs:199-204)
collects `soundfont.banks.keys()` WITHOUT sorting, so the bank selected is the
bank_index-th key in HashMap iteration order. On a legal catalog whose
iteration order is [5, 2], index 0 selects bank 5, while the 0th element of
the sorted bank list is 2. -/
theorem c2_counterexample :
    NewInv fontTwoBanks banksTwoBanks ∧
      (doSetProgram banksTwoBanks (fun _ => none) 0 "font" 0 0 true "nm").map
          (fun ps => ps 0)
        = some (some progTwoBanks) ∧
      progTwoBanks.bank = 5 ∧
      (List.insertionSort (fun a b => a ≤ b)
        (keysList banksTwoBanks)).headD 0 = 2 ∧
      (5 : Nat) ≠ 2 := by
  decide

/-- C2 (amended): the bank selected by SetProgram is the bank_index-th element
of the catalog's bank keys in ITERATION order (not sorted), the preset is the
preset_index-th element of that bank's preset list (which IS sorted, in
strictly ascending preset order), and the stored Program metadata records
exactly these positions: bank_index among the iteration-order keys,
preset_index within the ascending preset list, with the matching counts. -/
theorem c2_set_program_positions (font : Font) (banks : List (Nat × List Nat))
    (programs : Programs) (channel : Nat) (path : String) (presetName : String)
    (bank_index preset_index : Nat) (hinv : NewInv font banks)
    (hbank : bank_index < banks.length)
    (hpreset : preset_index <
      (lookupBank banks ((keysList banks).getD bank_index 0)).length) :
    ∃ ps prog,
      doSetProgram banks programs channel path bank_index preset_index true
          presetName = some ps ∧
      ps channel = some prog ∧
      prog.bank = (keysList banks).getD bank_index 0 ∧
      prog.preset = (lookupBank banks prog.bank).getD preset_index 0 ∧
      prog.bank_index = bank_index ∧ prog.preset_index = preset_index ∧
      prog.num_banks = banks.length ∧
      prog.num_presets = (lookupBank banks prog.bank).length ∧
      List.Sorted (· < ·) (lookupBank banks prog.bank) := by
  have hklen : (keysList banks).length = banks.length := List.length_map _ _
  have hbank2 : bank_index < (keysList banks).length := by omega
  have hb? : (keysList banks)[bank_index]? = some ((keysList banks).getD bank_index 0) := by
    rw [List.getElem?_eq_getElem hbank2, List.getD_eq_getElem _ 0 hbank2]
  have hbmem : (keysList banks).getD bank_index 0 ∈ keysList banks :=
    List.getElem?_mem hb?
  obtain ⟨ps0, hpsmem⟩ := mem_of_mem_keys hbmem
  have hlook : lookupBank banks ((keysList banks).getD bank_index 0) = ps0 := by
    unfold lookupBank
    rw [newInv_lookup hinv hpsmem]
    rfl
  obtain ⟨hpseq, _⟩ := newInv_mem_eq hinv hpsmem
  have hps_sorted :
      List.Sorted (· < ·) (lookupBank banks ((keysList banks).getD bank_index 0)) := by
    rw [hlook, hpseq]
    exact presetsOf_sorted font _
  have hp? :
      (lookupBank banks ((keysList banks).getD bank_index 0))[preset_index]?
        = some ((lookupBank banks ((keysList banks).getD bank_index 0)).getD
            preset_index 0) := by
    rw [List.getElem?_eq_getElem hpreset, List.getD_eq_getElem _ 0 hpreset]
  have hdo :
      doSetProgram banks programs channel path bank_index preset_index true
          presetName
        = some (set_program banks programs channel path
            ((keysList banks).getD bank_index 0)
            ((lookupBank banks ((keysList banks).getD bank_index 0)).getD
              preset_index 0)
            true presetName) := by
    unfold doSetProgram
    rw [hb?, Option.bind_eq_bind, Option.some_bind, hp?]
    rfl
  refine ⟨_, _, hdo, set_program_apply_channel banks programs channel path _ _
    presetName, rfl, rfl, ?_, ?_, rfl, rfl, hps_sorted⟩
  · show (keysList banks).findIdx
        (fun b => b == (keysList banks).getD bank_index 0) = bank_index
    exact findIdx_beq_of_nodup _ _ _ (newInv_keys_nodup hinv) hb?
  · show (lookupBank banks ((keysList banks).getD bank_index 0)).findIdx
        (fun p => p == (lookupBank banks ((keysList banks).getD bank_index 0)
          ).getD preset_index 0) = preset_index
    exact findIdx_beq_of_nodup _ _ _ hps_sorted.nodup hp?

/-- C2 witness: on the concrete unsorted catalog, indices (1, 1) select bank 2
(the key at iteration position 1) and preset 7, and the stored metadata
records positions (1, 1). -/
theorem c2_set_program_positions_witness :
    NewInv fontMixed banksMixed ∧
      ∃ ps prog,
        doSetProgram banksMixed (fun _ => none) 0 "f" 1 1 true "nm" = some ps ∧
        ps 0 = some prog ∧
        prog.bank = (keysList banksMixed).getD 1 0 ∧
        prog.preset = (lookupBank banksMixed prog.bank).getD 1 0 ∧
        prog.bank_index = 1 ∧ prog.preset_index = 1 ∧
        prog.num_banks = banksMixed.length ∧
        prog.num_presets = (lookupBank banksMixed prog.bank).length ∧
        List.Sorted (· < ·) (lookupBank banksMixed prog.bank) :=
  ⟨by decide,
    c2_set_program_positions fontMixed banksMixed (fun _ => none) 0 "f" "nm"
      1 1 (by decide) (by decide) (by decide)⟩

/-! ## Export length lemmas -/

theorem foldl_noteStep_init_le (p2s scale : Nat → Nat) (ch : Nat) :
    ∀ (l : List Note) (acc : List (Nat × MidiEvent) × Nat),
      acc.2 ≤ (l.foldl (noteStep p2s scale ch) acc).2 := by
  intro l
  induction l with
  | nil => intro acc; exact Nat.le_refl _
  | cons n l ih =>
    intro acc
    rw [List.foldl_cons]
    refine Nat.le_trans ?_ (ih (noteStep p2s scale ch acc n))
    show acc.2 ≤ if acc.2 < p2s n.«end» then p2s n.«end» else acc.2
    split
    · exact Nat.le_of_lt (by assumption)
    · exact Nat.le_refl _

theorem foldl_noteStep_bound (p2s scale : Nat → Nat) (ch : Nat) :
    ∀ (l : List Note) (acc : List (Nat × MidiEvent) × Nat),
      ∀ n ∈ l, p2s n.«end» ≤ (l.foldl (noteStep p2s scale ch) acc).2 := by
  intro l
  induction l with
  | nil => intro acc n hn; cases hn
  | cons m l ih =>
    intro acc n hn
    rw [List.foldl_cons]
    rcases List.mem_cons.mp hn with h | h
    · subst h
      refine Nat.le_trans ?_
        (foldl_noteStep_init_le p2s scale ch l (noteStep p2s scale ch acc n))
      show p2s n.«end» ≤ if acc.2 < p2s n.«end» then p2s n.«end» else acc.2
      split
      · exact Nat.le_refl _
      · exact Nat.le_of_not_lt (by assumption)
    · exact ih (noteStep p2s scale ch acc m) n h

theorem foldl_noteStep_attained (p2s scale : Nat → Nat) (ch : Nat) :
    ∀ (l : List Note) (acc : List (Nat × MidiEvent) × Nat),
      (l.foldl (noteStep p2s scale ch) acc).2 = acc.2 ∨
        ∃ n ∈ l, (l.foldl (noteStep p2s scale ch) acc).2 = p2s n.«end» := by
  intro l
  induction l with
  | nil => intro acc; exact Or.inl rfl
  | cons m l ih =>
    intro acc
    rw [List.foldl_cons]
    rcases ih (noteStep p2s scale ch acc m) with h | h
    · rw [h]
      show ((if acc.2 < p2s m.«end» then p2s m.«end» else acc.2) = acc.2) ∨
        ∃ n ∈ m :: l,
          (if acc.2 < p2s m.«end» then p2s m.«end» else acc.2) = p2s n.«end»
      split
      · exact Or.inr ⟨m, List.mem_cons_self m l, rfl⟩
      · exact Or.inl rfl
    · rcases h with ⟨n, hn, he⟩
      exact Or.inr ⟨n, List.mem_cons_of_mem m hn, he⟩

theorem foldl_tracks_init_le (p2s scale : Nat → Nat) :
    ∀ (ts : List MidiTrack) (acc : List (Nat × MidiEvent) × Nat),
      acc.2 ≤ (ts.foldl (fun acc track =>
        enqueue_track_events p2s scale track acc) acc).2 := by
  intro ts
  induction ts with
  | nil => intro acc; exact Nat.le_refl _
  | cons t ts ih =>
    intro acc
    rw [List.foldl_cons]
    exact Nat.le_trans
      (foldl_noteStep_init_le p2s scale t.channel t.notes acc)
      (ih (enqueue_track_events p2s scale t acc))

theorem foldl_tracks_bound (p2s scale : Nat → Nat) :
    ∀ (ts : List MidiTrack) (acc : List (Nat × MidiEvent) × Nat),
      ∀ t ∈ ts, ∀ n ∈ t.notes,
        p2s n.«end» ≤ (ts.foldl (fun acc track =>
          enqueue_track_events p2s scale track acc) acc).2 := by
  intro ts
  induction ts with
  | nil => intro acc t ht; cases ht
  | cons u ts ih =>
    intro acc t ht n hn
    rw [List.foldl_cons]
    rcases List.mem_cons.mp ht with h | h
    · subst h
      exact Nat.le_trans
        (foldl_noteStep_bound p2s scale t.channel t.notes acc n hn)
        (foldl_tracks_init_le p2s scale ts
          (enqueue_track_events p2s scale t acc))
    · exact ih (enqueue_track_events p2s scale u acc) t h n hn

theorem foldl_tracks_attained (p2s scale : Nat → Nat) :
    ∀ (ts : List MidiTrack) (acc : List (Nat × MidiEvent) × Nat),
      (ts.foldl (fun acc track =>
          enqueue_track_events p2s scale track acc) acc).2 = acc.2 ∨
        ∃ t ∈ ts, ∃ n ∈ t.notes,
          (ts.foldl (fun acc track =>
            enqueue_track_events p2s scale track acc) acc).2 = p2s n.«end» := by
  intro ts
  induction ts with
  | nil => intro acc; exact Or.inl rfl
  | cons u ts ih =>
    intro acc
    rw [List.foldl_cons]
    rcases ih (enqueue_track_events p2s scale u acc) with h | h
    · rcases foldl_noteStep_attained p2s scale u.channel u.notes acc with h2 | h2
      · exact Or.inl (h.trans h2)
      · rcases h2 with ⟨n, hn, he⟩
        exact Or.inr ⟨u, List.mem_cons_self u ts, n, hn, h.trans he⟩
    · rcases h with ⟨t, ht, n, hn, he⟩
      exact Or.inr ⟨t, List.mem_cons_of_mem u ht, n, hn, he⟩

theorem renderLoop_lengths (synth : Nat → ℚ × ℚ) (total : Nat)
    (events : List (Nat × MidiEvent)) :
    ∀ n, (renderLoop synth total events n).1.length = total ∧
      (renderLoop synth total events n).2.1.length = total := by
  intro n
  induction n with
  | zero => exact ⟨List.length_replicate total 0, List.length_replicate total 0⟩
  | succ n ih =>
    unfold renderLoop renderStep
    rw [List.length_set, List.length_set]
    exact ih

/-- C6: for each Exportable that Conn::start_export builds, total_samples is
exactly the maximum of the track's note end times converted to samples at the
export framerate (`p2s`); in single-file mode it is the maximum over all
playable tracks' notes; and the render buffers the export worker allocates and
fills still have exactly total_samples elements when the decay phase begins. -/
theorem c6_total_samples (p2s scale : Nat → Nat) (sfx : MidiTrack → String)
    (music : Music) (synth : Nat → ℚ × ℚ) :
    ((start_export true p2s scale sfx music).length
        = (get_playable_tracks music).length) ∧
    (∀ (i : Nat) (track : MidiTrack) (e : Exportable),
      (get_playable_tracks music)[i]? = some track →
      (start_export true p2s scale sfx music)[i]? = some e →
        (∀ n ∈ track.notes, p2s n.«end» ≤ e.total_samples) ∧
        (track.notes ≠ [] →
          ∃ n ∈ track.notes, e.total_samples = p2s n.«end»)) ∧
    (∀ e : Exportable, start_export false p2s scale sfx music = [e] →
        (∀ t ∈ get_playable_tracks music, ∀ n ∈ t.notes,
          p2s n.«end» ≤ e.total_samples) ∧
        ((∃ t ∈ get_playable_tracks music, t.notes ≠ []) →
          ∃ t ∈ get_playable_tracks music, ∃ n ∈ t.notes,
            e.total_samples = p2s n.«end»)) ∧
    (∀ (total n : Nat) (events : List (Nat × MidiEvent)),
      (renderLoop synth total events n).1.length = total ∧
        (renderLoop synth total events n).2.1.length = total) := by
  refine ⟨?_, ?_, ?_, ?_⟩
  · unfold start_export
    simp
  · intro i track e htrack he
    have hmap : (start_export true p2s scale sfx music)[i]?
        = ((get_playable_tracks music)[i]?).map (fun track =>
            let r := enqueue_track_events p2s scale track ([], 0)
            { events := sortQueue r.1, total_samples := r.2,
              suffix := some (sfx track) : Exportable }) := by
      unfold start_export
      simp [List.getElem?_map]
    rw [hmap, htrack, Option.map_some'] at he
    have he2 : e = { events := sortQueue (enqueue_track_events p2s scale track ([], 0)).1, total_samples := (enqueue_track_events p2s scale track ([], 0)).2, suffix := some (sfx track) } :=
      (Option.some.inj he).symm
    subst he2
    constructor
    · intro n hn
      exact foldl_noteStep_bound p2s scale track.channel track.notes ([], 0) n hn
    · intro hne
      rcases foldl_noteStep_attained p2s scale track.channel track.notes
          ([], 0) with h | h
      · obtain ⟨n0, l0, hn0⟩ := List.exists_cons_of_ne_nil hne
        refine ⟨n0, hn0 ▸ List.mem_cons_self n0 l0, ?_⟩
        have hb : p2s n0.«end» ≤ (enqueue_track_events p2s scale track
            ([], 0)).2 :=
          foldl_noteStep_bound p2s scale track.channel track.notes ([], 0) n0
            (hn0 ▸ List.mem_cons_self n0 l0)
        show (enqueue_track_events p2s scale track ([], 0)).2 = p2s n0.«end»
        have hz : (enqueue_track_events p2s scale track ([], 0)).2 = 0 := h
        omega
      · exact h
  · intro e he
    have he2 : e = { events := sortQueue ((get_playable_tracks music).foldl (fun acc track => enqueue_track_events p2s scale track acc) ([], 0)).1, total_samples := ((get_playable_tracks music).foldl (fun acc track => enqueue_track_events p2s scale track acc) ([], 0)).2, suffix := none } := by
      have hx : start_export false p2s scale sfx music
          = [{ events := sortQueue ((get_playable_tracks music).foldl (fun acc track => enqueue_track_events p2s scale track acc) ([], 0)).1, total_samples := ((get_playable_tracks music).foldl (fun acc track => enqueue_track_events p2s scale track acc) ([], 0)).2, suffix := none }] := rfl
      rw [hx] at he
      exact (List.cons.inj he).1.symm
    subst he2
    constructor
    · intro t ht n hn
      exact foldl_tracks_bound p2s scale (get_playable_tracks music) ([], 0)
        t ht n hn
    · intro hne
      rcases foldl_tracks_attained p2s scale (get_playable_tracks music)
          ([], 0) with h | h
      · rcases hne with ⟨t, ht, htn⟩
        obtain ⟨n0, l0, hn0⟩ := List.exists_cons_of_ne_nil htn
        refine ⟨t, ht, n0, hn0 ▸ List.mem_cons_self n0 l0, ?_⟩
        have hb : p2s n0.«end» ≤ ((get_playable_tracks music).foldl
            (fun acc track => enqueue_track_events p2s scale track acc)
            ([], 0)).2 :=
          foldl_tracks_bound p2s scale (get_playable_tracks music) ([], 0)
            t ht n0 (hn0 ▸ List.mem_cons_self n0 l0)
        have hz : ((get_playable_tracks music).foldl
            (fun acc track => enqueue_track_events p2s scale track acc)
            ([], 0)).2 = 0 := h
        show ((get_playable_tracks music).foldl
          (fun acc track => enqueue_track_events p2s scale track acc)
          ([], 0)).2 = p2s n0.«end»
        omega
      · exact h
  · intro total n events
    exact renderLoop_lengths synth total events n

/-- C6 witness: on the spec's worked example, notes (0, 100) and (50, 150)
with the identity sample conversion, the exportable's total sample count is
attained at a note end (it is 150), and the render buffers at the start of the
decay phase have that many elements. -/
theorem c6_total_samples_witness :
    ((get_playable_tracks musicPlain)[0]? = some trackPlain ∧
      (start_export true (fun u => u) (fun v => v) (fun _ => "") musicPlain)[0]?
        = some { events := sortQueue (enqueue_track_events (fun u => u) (fun v => v) trackPlain ([], 0)).1, total_samples := 150, suffix := some "" } ∧
      trackPlain.notes ≠ []) ∧
    (∃ n ∈ trackPlain.notes,
      (150 : Nat) = n.«end») :=
  ⟨⟨by decide, by decide, by decide⟩, by
    have h := (c6_total_samples (fun u => u) (fun v => v) (fun _ => "")
      musicPlain (fun _ => (0, 0))).2.1 0 trackPlain
      { events := sortQueue (enqueue_track_events (fun u => u) (fun v => v) trackPlain ([], 0)).1, total_samples := 150, suffix := some "" }
      (by decide) (by decide)
    exact h.2 (by decide)⟩

/-! ## Sample conversion theorems -/

/-- C8 counterexample: the claim quantifies over every f32 sample value, but
Rust's float-to-integer `as` cast saturates: for the sample 2.0 (exactly
representable, product exactly 65535.0) the file stores 32767, not the floor
65535. -/
theorem c8_counterexample :
    wavSamples [2] [0] = [32767, 0] ∧
      Int.floor ((2 : ℚ) * F32_TO_I16) = 65535 ∧ ((32767 : Int) ≠ 65535) := by
  have h2 : Int.floor ((2 : ℚ) * F32_TO_I16) = 65535 := by
    have hx : ((2 : ℚ) * F32_TO_I16) = ((65535 : Int) : ℚ) := by
      norm_num [F32_TO_I16]
    rw [hx, Int.floor_intCast]
  have h0 : Int.floor ((0 : ℚ) * F32_TO_I16) = 0 := by
    have hx : ((0 : ℚ) * F32_TO_I16) = ((0 : Int) : ℚ) := by norm_num
    rw [hx, Int.floor_intCast]
  refine ⟨?_, h2, by decide⟩
  show [to_i16 2, to_i16 0] = [32767, 0]
  have ha : to_i16 2 = 32767 := by
    unfold to_i16
    rw [h2]
    decide
  have hb : to_i16 0 = 0 := by
    unfold to_i16
    rw [h0]
    decide
  rw [ha, hb]

theorem to_i16_eq_floor (x : ℚ) (h1 : -1 ≤ x) (h2 : x ≤ 1) :
    to_i16 x = Int.floor (x * F32_TO_I16) := by
  have hc : (0 : ℚ) ≤ F32_TO_I16 := by norm_num [F32_TO_I16]
  have hub : Int.floor (x * F32_TO_I16) ≤ 32767 := by
    have hmul : x * F32_TO_I16 ≤ F32_TO_I16 := by
      calc x * F32_TO_I16 ≤ 1 * F32_TO_I16 := mul_le_mul_of_nonneg_right h2 hc
        _ = F32_TO_I16 := one_mul _
    have hfc : Int.floor (F32_TO_I16 : ℚ) = 32767 := by
      apply Int.floor_eq_iff.mpr
      constructor <;> norm_num [F32_TO_I16]
    have := Int.floor_mono hmul
    omega
  have hlb : (-32768 : Int) ≤ Int.floor (x * F32_TO_I16) := by
    have hmul : -F32_TO_I16 ≤ x * F32_TO_I16 := by
      calc -F32_TO_I16 = -1 * F32_TO_I16 := by ring
        _ ≤ x * F32_TO_I16 := mul_le_mul_of_nonneg_right h1 hc
    have hfc : Int.floor (-F32_TO_I16 : ℚ) = -32768 := by
      apply Int.floor_eq_iff.mpr
      constructor <;> norm_num [F32_TO_I16]
    have := Int.floor_mono hmul
    omega
  unfold to_i16
  rw [min_eq_right hub, max_eq_right hlb]

theorem wavSamples_eq_floor :
    ∀ (left right : List ℚ), (∀ x ∈ left, -1 ≤ x ∧ x ≤ 1) →
      (∀ x ∈ right, -1 ≤ x ∧ x ≤ 1) →
      wavSamples left right
        = (left.zip right).flatMap (fun lr =>
            [Int.floor (lr.1 * F32_TO_I16), Int.floor (lr.2 * F32_TO_I16)]) := by
  intro left
  induction left with
  | nil => intro right _ _; cases right <;> rfl
  | cons a l ih =>
    intro right hL hR
    cases right with
    | nil => rfl
    | cons b r =>
      have ha := hL a (List.mem_cons_self a l)
      have hb := hR b (List.mem_cons_self b r)
      have htail := ih r (fun x hx => hL x (List.mem_cons_of_mem a hx))
        (fun x hx => hR x (List.mem_cons_of_mem b hx))
      unfold wavSamples at htail ⊢
      rw [List.zip_cons_cons, List.flatMap_cons, List.flatMap_cons, htail,
        to_i16_eq_floor a ha.1 ha.2, to_i16_eq_floor b hb.1 hb.2]

/-- C8 (amended): the stored PCM value is the floor of the sample times
32767.5, CLAMPED to the i16 range by the saturating cast; for samples in
[-1, 1] — the nominal audio range — the clamp is inactive and the stored
value is exactly the floor, on both channels independently. -/
theorem c8_wav_pcm (left right : List ℚ)
    (hL : ∀ x ∈ left, -1 ≤ x ∧ x ≤ 1) (hR : ∀ x ∈ right, -1 ≤ x ∧ x ≤ 1) :
    (∀ x : ℚ, to_i16 x
      = max (-32768) (min 32767 (Int.floor (x * F32_TO_I16)))) ∧
    wavSamples left right
      = (left.zip right).flatMap (fun lr =>
          [Int.floor (lr.1 * F32_TO_I16), Int.floor (lr.2 * F32_TO_I16)]) :=
  ⟨fun _ => rfl, wavSamples_eq_floor left right hL hR⟩

/-- C8 witness: the in-range samples 0 and 1 are stored as plain floors. -/
theorem c8_wav_pcm_witness :
    (∀ x ∈ ([0, 1] : List ℚ), -1 ≤ x ∧ x ≤ 1) ∧
      ((∀ x : ℚ, to_i16 x
          = max (-32768) (min 32767 (Int.floor (x * F32_TO_I16)))) ∧
        wavSamples [0, 1] [1, 0]
          = (([0, 1] : List ℚ).zip ([1, 0] : List ℚ)).flatMap (fun lr =>
              [Int.floor (lr.1 * F32_TO_I16),
                Int.floor (lr.2 * F32_TO_I16)])) :=
  ⟨by norm_num,
    c8_wav_pcm [0, 1] [1, 0] (by norm_num) (by norm_num)⟩

/-! ## Pulse-walk lemmas for the .mid export -/

theorem foldl_emitOn_eq (conv : Nat → Nat) (t : Nat) :
    ∀ (l : List MidiNote) (acc : List MidMessage × Nat),
      l.foldl (emitOn conv) acc
        = (l.map (fun n => ((t, true, n) : TimedNote))).foldl
            (emitEvent conv) acc := by
  intro l
  induction l with
  | nil => intro acc; rfl
  | cons n l ih =>
    intro acc
    rw [List.map_cons, List.foldl_cons, List.foldl_cons]
    exact ih (emitOn conv acc n)

theorem foldl_emitOff_eq (conv : Nat → Nat) (t : Nat) :
    ∀ (l : List MidiNote) (acc : List MidMessage × Nat),
      l.foldl (emitOff conv) acc
        = (l.map (fun n => ((t, false, n) : TimedNote))).foldl
            (emitEvent conv) acc := by
  intro l
  induction l with
  | nil => intro acc; rfl
  | cons n l ih =>
    intro acc
    rw [List.map_cons, List.foldl_cons, List.foldl_cons]
    exact ih (emitOff conv acc n)

theorem lastPulseD_append :
    ∀ (L E : List TimedNote) (prev : Nat),
      lastPulseD prev (L ++ E) = lastPulseD (lastPulseD prev L) E := by
  intro L
  induction L with
  | nil => intro E prev; rfl
  | cons e L ih => intro E prev; exact ih E e.1

theorem emitTimed_append (conv : Nat → Nat) :
    ∀ (L E : List TimedNote) (prev : Nat),
      emitTimed conv prev (L ++ E)
        = emitTimed conv prev L ++ emitTimed conv (lastPulseD prev L) E := by
  intro L
  induction L with
  | nil => intro E prev; rfl
  | cons e L ih =>
    intro E prev
    obtain ⟨p, isOn, n⟩ := e
    rw [List.cons_append]
    show (if isOn then MidMessage.noteOn (conv (p - prev)) n.channel
        n.note.note n.note.velocity
      else MidMessage.noteOff (conv (p - prev)) n.channel n.note.note
        n.note.velocity) :: emitTimed conv p (L ++ E) = _
    rw [ih E p]
    rfl

theorem pulseEvents_fst (notes : List MidiNote) (t : Nat) :
    ∀ e ∈ pulseEvents notes t, e.1 = t := by
  intro e he
  rcases List.mem_append.mp he with h | h <;>
    · rcases List.mem_map.mp h with ⟨n, _, heq⟩
      cases heq
      rfl

theorem lastPulseD_const (t : Nat) :
    ∀ (E : List TimedNote) (prev : Nat), E ≠ [] → (∀ e ∈ E, e.1 = t) →
      lastPulseD prev E = t := by
  intro E
  induction E with
  | nil => intro prev h _; exact absurd rfl h
  | cons e E ih =>
    intro prev _ hE
    by_cases hEnil : E = []
    · subst hEnil
      simp only [lastPulseD]
      exact hE e (List.mem_cons_self e [])
    · simp only [lastPulseD]
      exact ih e.1 hEnil (fun x hx => hE x (List.mem_cons_of_mem e hx))

theorem lastPulseD_le (t : Nat) :
    ∀ (E : List TimedNote) (prev : Nat), (∀ e ∈ E, e.1 ≤ t) → prev ≤ t →
      lastPulseD prev E ≤ t := by
  intro E
  induction E with
  | nil => intro prev _ hp; exact hp
  | cons e E ih =>
    intro prev hE _
    exact ih e.1 (fun x hx => hE x (List.mem_cons_of_mem e hx))
      (hE e (List.mem_cons_self e E))

theorem timelineEvents_succ (notes : List MidiNote) (t : Nat) :
    timelineEvents notes (t + 1)
      = timelineEvents notes t ++ pulseEvents notes t := by
  unfold timelineEvents
  rw [List.range_succ, List.flatMap_append]
  simp

theorem timelineEvents_lt (notes : List MidiNote) (t : Nat) :
    ∀ e ∈ timelineEvents notes t, e.1 < t := by
  intro e he
  rcases List.mem_flatMap.mp he with ⟨u, hu, hpe⟩
  rw [pulseEvents_fst notes u e hpe]
  exact List.mem_range.mp hu

theorem foldl_emitEvent_const (conv : Nat → Nat) (t : Nat) :
    ∀ (E : List TimedNote), (∀ e ∈ E, e.1 = t) →
      ∀ (M : List MidMessage) (prev : Nat), prev ≤ t →
        E.foldl (emitEvent conv) (M, t - prev)
          = (M ++ emitTimed conv prev E, if E.isEmpty then t - prev else 0) := by
  intro E
  induction E with
  | nil =>
    intro _ M prev _
    show (M, t - prev) = (M ++ [], t - prev)
    rw [List.append_nil]
  | cons e E ih =>
    intro hE M prev _
    obtain ⟨p, isOn, n⟩ := e
    have hp : p = t := hE (p, isOn, n) (List.mem_cons_self _ E)
    subst hp
    rw [List.foldl_cons]
    have hstep : emitEvent conv (M, p - prev) (p, isOn, n)
        = (M ++ [if isOn then MidMessage.noteOn (conv (p - prev)) n.channel
              n.note.note n.note.velocity
            else MidMessage.noteOff (conv (p - prev)) n.channel n.note.note
              n.note.velocity], 0) := rfl
    have hzero : (0 : Nat) = p - p := (Nat.sub_self p).symm
    have hih := ih (fun x hx => hE x (List.mem_cons_of_mem _ hx))
      (M ++ [if isOn then MidMessage.noteOn (conv (p - prev)) n.channel
          n.note.note n.note.velocity
        else MidMessage.noteOff (conv (p - prev)) n.channel n.note.note
          n.note.velocity])
      p (Nat.le_refl p)
    rw [Nat.sub_self] at hih
    rw [hstep, hih, ite_self]
    show ((M ++ [if isOn then MidMessage.noteOn (conv (p - prev)) n.channel
          n.note.note n.note.velocity
        else MidMessage.noteOff (conv (p - prev)) n.channel n.note.note
          n.note.velocity]) ++ emitTimed conv p E, (0 : Nat))
      = (M ++ ((if isOn then MidMessage.noteOn (conv (p - prev)) n.channel
          n.note.note n.note.velocity
        else MidMessage.noteOff (conv (p - prev)) n.channel n.note.note
          n.note.velocity) :: emitTimed conv p E), (0 : Nat))
    rw [List.append_assoc]
    rfl

theorem pulseStep_eq (conv : Nat → Nat) (notes : List MidiNote)
    (acc : List MidMessage × Nat) (t : Nat) :
    pulseStep conv notes acc t
      = (((pulseEvents notes t).foldl (emitEvent conv) acc).1,
         ((pulseEvents notes t).foldl (emitEvent conv) acc).2 + 1) := by
  show (((notes.filter (fun n => n.note.«end» == t)).foldl (emitOff conv)
      ((notes.filter (fun n => n.note.start == t)).foldl (emitOn conv) acc)).1,
    ((notes.filter (fun n => n.note.«end» == t)).foldl (emitOff conv)
      ((notes.filter (fun n => n.note.start == t)).foldl (emitOn conv) acc)).2
      + 1) = _
  unfold pulseEvents
  rw [List.foldl_append, foldl_emitOn_eq conv t, foldl_emitOff_eq conv t]

theorem midWalk_spec (conv : Nat → Nat) (notes : List MidiNote) :
    ∀ t, midWalk conv notes t
      = (emitTimed conv 0 (timelineEvents notes t),
         t - lastPulseD 0 (timelineEvents notes t)) := by
  intro t
  induction t with
  | zero => rfl
  | succ t ih =>
    have hle : lastPulseD 0 (timelineEvents notes t) ≤ t :=
      lastPulseD_le t (timelineEvents notes t) 0
        (fun e he => Nat.le_of_lt (timelineEvents_lt notes t e he))
        (Nat.zero_le t)
    show pulseStep conv notes (midWalk conv notes t) t = _
    rw [ih, pulseStep_eq,
      foldl_emitEvent_const conv t (pulseEvents notes t)
        (pulseEvents_fst notes t) (emitTimed conv 0 (timelineEvents notes t))
        (lastPulseD 0 (timelineEvents notes t)) hle,
      timelineEvents_succ notes t,
      emitTimed_append conv (timelineEvents notes t) (pulseEvents notes t) 0,
      lastPulseD_append (timelineEvents notes t) (pulseEvents notes t) 0]
    cases hE : pulseEvents notes t with
    | nil =>
      show (_, (t - lastPulseD 0 (timelineEvents notes t)) + 1) = (_, _)
      rw [show lastPulseD (lastPulseD 0 (timelineEvents notes t)) ([] : List TimedNote)
          = lastPulseD 0 (timelineEvents notes t) from rfl]
      have : (t - lastPulseD 0 (timelineEvents notes t)) + 1
          = (t + 1) - lastPulseD 0 (timelineEvents notes t) := by omega
      rw [this]
    | cons f F =>
      show (_, (0 : Nat) + 1) = (_, _)
      have hlast : lastPulseD (lastPulseD 0 (timelineEvents notes t)) (f :: F)
          = t := by
        apply lastPulseD_const t (f :: F) _ (List.cons_ne_nil f F)
        intro x hx
        exact pulseEvents_fst notes t x (hE ▸ hx)
      rw [hlast]
      have : (0 : Nat) + 1 = (t + 1) - t := by omega
      rw [this]

theorem countP_map {α β : Type} (p : β → Bool) (g : α → β) :
    ∀ l : List α, (l.map g).countP p = l.countP (fun x => p (g x)) := by
  intro l
  induction l with
  | nil => rfl
  | cons a l ih => simp [List.countP_cons, ih]

theorem countP_emitTimed_off (conv : Nat → Nat) :
    ∀ (E : List TimedNote) (prev : Nat),
      (emitTimed conv prev E).countP (fun m => isNoteOff m)
        = E.countP (fun e => !e.2.1) := by
  intro E
  induction E with
  | nil => intro prev; rfl
  | cons e E ih =>
    intro prev
    obtain ⟨p, isOn, n⟩ := e
    show ((if isOn then MidMessage.noteOn (conv (p - prev)) n.channel
        n.note.note n.note.velocity
      else MidMessage.noteOff (conv (p - prev)) n.channel n.note.note
        n.note.velocity) :: emitTimed conv p E).countP (fun m => isNoteOff m)
      = _
    rw [List.countP_cons, List.countP_cons, ih p]
    cases isOn <;> rfl

theorem countP_emitTimed_on (conv : Nat → Nat) :
    ∀ (E : List TimedNote) (prev : Nat),
      (emitTimed conv prev E).countP (fun m => isNoteOn m)
        = E.countP (fun e => e.2.1) := by
  intro E
  induction E with
  | nil => intro prev; rfl
  | cons e E ih =>
    intro prev
    obtain ⟨p, isOn, n⟩ := e
    show ((if isOn then MidMessage.noteOn (conv (p - prev)) n.channel
        n.note.note n.note.velocity
      else MidMessage.noteOff (conv (p - prev)) n.channel n.note.note
        n.note.velocity) :: emitTimed conv p E).countP (fun m => isNoteOn m)
      = _
    rw [List.countP_cons, List.countP_cons, ih p]
    cases isOn <;> rfl

theorem countP_pulseEvents_off (notes : List MidiNote) (t : Nat) :
    (pulseEvents notes t).countP (fun e => !e.2.1)
      = notes.countP (fun n => n.note.«end» == t) := by
  unfold pulseEvents
  rw [List.countP_append, countP_map, countP_map]
  simp [List.countP_eq_length_filter]

theorem countP_pulseEvents_on (notes : List MidiNote) (t : Nat) :
    (pulseEvents notes t).countP (fun e => e.2.1)
      = notes.countP (fun n => n.note.start == t) := by
  unfold pulseEvents
  rw [List.countP_append, countP_map, countP_map]
  simp [List.countP_eq_length_filter]

theorem countP_lt_succ (f : MidiNote → Nat) (t : Nat) :
    ∀ l : List MidiNote,
      l.countP (fun n => f n < t + 1)
        = l.countP (fun n => f n < t) + l.countP (fun n => f n == t) := by
  intro l
  induction l with
  | nil => rfl
  | cons n l ih =>
    rw [List.countP_cons, List.countP_cons, List.countP_cons, ih]
    rcases Nat.lt_trichotomy (f n) t with h | h | h
    · have h1 : decide (f n < t + 1) = true := by simp; omega
      have h2 : decide (f n < t) = true := by simp [h]
      have h3 : (f n == t) = false := by simp; omega
      rw [h1, h2, h3]
      simp only [eq_self_iff_true, if_true, Bool.false_eq_true, if_false]
      omega
    · have h1 : decide (f n < t + 1) = true := by simp; omega
      have h2 : decide (f n < t) = false := by simp; omega
      have h3 : (f n == t) = true := by simp [h]
      rw [h1, h2, h3]
      simp only [eq_self_iff_true, if_true, Bool.false_eq_true, if_false]
      omega
    · have h1 : decide (f n < t + 1) = false := by simp; omega
      have h2 : decide (f n < t) = false := by simp; omega
      have h3 : (f n == t) = false := by simp; omega
      rw [h1, h2, h3]
      simp only [eq_self_iff_true, if_true, Bool.false_eq_true, if_false]
      omega

theorem countP_timeline_off (notes : List MidiNote) :
    ∀ t1 : Nat, (timelineEvents notes t1).countP (fun e => !e.2.1)
      = notes.countP (fun n => n.note.«end» < t1) := by
  intro t1
  induction t1 with
  | zero =>
    have h : notes.countP (fun n => n.note.«end» < 0) = 0 := by
      rw [List.countP_eq_zero]
      intro n _
      simp
    rw [h]
    rfl
  | succ t ih =>
    rw [timelineEvents_succ, List.countP_append, ih, countP_pulseEvents_off,
      countP_lt_succ (fun n => n.note.«end») t notes]

theorem countP_timeline_on (notes : List MidiNote) :
    ∀ t1 : Nat, (timelineEvents notes t1).countP (fun e => e.2.1)
      = notes.countP (fun n => n.note.start < t1) := by
  intro t1
  induction t1 with
  | zero =>
    have h : notes.countP (fun n => n.note.start < 0) = 0 := by
      rw [List.countP_eq_zero]
      intro n _
      simp
    rw [h]
    rfl
  | succ t ih =>
    rw [timelineEvents_succ, List.countP_append, ih, countP_pulseEvents_on,
      countP_lt_succ (fun n => n.note.start) t notes]

/-- C7: the claim says the .mid export emits a note-off for EVERY note at the
pulse equal to the note's end. The walk `while t < t1` (exporter.rs:156-184)
stops before the final pulse t1 = max end, so a note ending at t1 gets no
note-off: for the one-note project with note (start 0, end 1), one note-on and
ZERO note-off channel events are written. -/
theorem c7_counterexample :
    (gatherNotes musicOneNote).length = 1 ∧
      (midBody (fun d => d) musicOneNote).countP (fun m => isNoteOn m) = 1 ∧
      (midBody (fun d => d) musicOneNote).countP (fun m => isNoteOff m) = 0 := by
  decide

/-- C7 (amended): the .mid path gathers all notes from all tracks, sorts them
by start time, and walks pulses 0 up to but EXCLUDING t1 = the maximum note
end: the emitted channel messages are exactly, pulse by pulse in order, the
note-ons of notes starting at that pulse then the note-offs of notes ending at
that pulse, each message's delta being the converted gap to the previous
message (the counter is reset to zero after every message); consequently a
note-on is emitted for every note with start < t1 and a note-off for every
note with end < t1 — notes ending exactly at t1 get no note-off. No
synthesizer state and no audio buffer occurs in this path. -/
theorem c7_mid_pulse_walk (conv : Nat → Nat) (music : Music)
    (hne : gatherNotes music ≠ []) :
    (midBody conv music
      = emitTimed conv 0
          (timelineEvents (sortNotes (gatherNotes music))
            (maxEnd (sortNotes (gatherNotes music))))) ∧
    ((midBody conv music).countP (fun m => isNoteOn m)
      = (sortNotes (gatherNotes music)).countP
          (fun n => n.note.start < maxEnd (sortNotes (gatherNotes music)))) ∧
    ((midBody conv music).countP (fun m => isNoteOff m)
      = (sortNotes (gatherNotes music)).countP
          (fun n => n.note.«end» < maxEnd (sortNotes (gatherNotes music)))) := by
  have hemp : (gatherNotes music).isEmpty = false := by
    cases h : (gatherNotes music).isEmpty
    · rfl
    · exact absurd (List.isEmpty_iff.mp h) hne
  have hbody : midBody conv music
      = (midWalk conv (sortNotes (gatherNotes music))
          (maxEnd (sortNotes (gatherNotes music)))).1 := by
    show (if (gatherNotes music).isEmpty then ([] : List MidMessage)
      else (midWalk conv (sortNotes (gatherNotes music))
        (maxEnd (sortNotes (gatherNotes music)))).1) = _
    rw [hemp]
    rfl
  have h1 : midBody conv music
      = emitTimed conv 0
          (timelineEvents (sortNotes (gatherNotes music))
            (maxEnd (sortNotes (gatherNotes music)))) := by
    rw [hbody, midWalk_spec conv (sortNotes (gatherNotes music))
      (maxEnd (sortNotes (gatherNotes music)))]
  refine ⟨h1, ?_, ?_⟩
  · rw [h1, countP_emitTimed_on, countP_timeline_on]
  · rw [h1, countP_emitTimed_off, countP_timeline_off]

/-- C7 witness: the amended characterization evaluated on the one-note music. -/
theorem c7_mid_pulse_walk_witness :
    gatherNotes musicOneNote ≠ [] ∧
      ((midBody (fun d => d) musicOneNote
        = emitTimed (fun d => d) 0
            (timelineEvents (sortNotes (gatherNotes musicOneNote))
              (maxEnd (sortNotes (gatherNotes musicOneNote))))) ∧
      ((midBody (fun d => d) musicOneNote).countP (fun m => isNoteOn m)
        = (sortNotes (gatherNotes musicOneNote)).countP
            (fun n => n.note.start
              < maxEnd (sortNotes (gatherNotes musicOneNote)))) ∧
      ((midBody (fun d => d) musicOneNote).countP (fun m => isNoteOff m)
        = (sortNotes (gatherNotes musicOneNote)).countP
            (fun n => n.note.«end»
              < maxEnd (sortNotes (gatherNotes musicOneNote))))) :=
  ⟨by decide, c7_mid_pulse_walk (fun d => d) musicOneNote (by decide)⟩

end Cacophony
